import Mathlib

/-!
Verification of the EdgeFinder signal-discovery pipeline.

This file embeds the pipeline of `server/ai-service.ts` (market discovery,
relevance filtering, price enrichment, AI fair-value estimation, edge
computation and signal materialization), the scan and signal-status endpoints
of `server/routes.ts`, and the signal-lifecycle defaults of
`shared/schema.ts`, as executable Lean definitions, and proves the key
functional properties of that code.

Numbers are modelled as exact rationals (`ℚ`); JavaScript `Math.round` is
`⌊x + 1/2⌋`.  External I/O (the venue catalog endpoint, the live-quote
endpoint, the language-model judge) is modelled by explicit outcome values
passed into the embedded functions, so that every control path of the source
is represented.
-/

namespace EdgeFinder

/-- JavaScript `Math.round`: round to the nearest integer, ties toward
positive infinity (`Math.round x = ⌊x + 1/2⌋`). -/
def jsRound (x : ℚ) : ℤ := ⌊x + 1 / 2⌋

/-- Rounding bound: `jsRound` is a nearest-integer rounding: it never differs from its
argument by more than one half. -/
theorem jsRound_near (x : ℚ) : |x - (jsRound x : ℚ)| ≤ 1 / 2 := by
  have h1 : (jsRound x : ℚ) ≤ x + 1 / 2 := Int.floor_le _
  have h2 : x + 1 / 2 < (jsRound x : ℚ) + 1 := Int.lt_floor_add_one _
  rw [abs_le]
  constructor <;> linarith

/-- Evaluation rule for `jsRound` at explicit values. -/
theorem jsRound_eq (x : ℚ) (n : ℤ) (h1 : (n : ℚ) ≤ x + 1 / 2)
    (h2 : x + 1 / 2 < n + 1) : jsRound x = n := by
  unfold jsRound
  exact Int.floor_eq_iff.mpr ⟨h1, h2⟩

/-- Trading side of a binary market (`"YES" | "NO"` in the source). -/
inductive Side where
  | yes
  | no
deriving DecidableEq, Repr

/-- Candidate record `MarketData` (ai-service.ts): one candidate market as handed to the
judge and the materializer. -/
structure MarketData where
  id : String
  question : String
  description : Option String
  currentPrice : ℚ
  volume : Option ℚ
  liquidity : Option ℚ
  endDate : Option String
deriving DecidableEq, Repr

/-- Judge opinion record `AIMarketAnalysis` (ai-service.ts): one judge opinion. -/
structure AIMarketAnalysis where
  marketId : String
  aiProbability : ℚ
  side : Side
  explanation : String
  shouldTrade : Bool
deriving DecidableEq, Repr

/-- Signal record `InsertSignal` (shared/schema.ts `insertSignalSchema`): the record the
materializer emits.  `status` and `createdAt` are omitted by the insert
schema, exactly as in the source. -/
structure InsertSignal where
  topicId : String
  marketId : String
  marketQuestion : String
  marketDescription : Option String
  side : Side
  marketPrice : ℚ
  aiFairPrice : ℚ
  edgeBps : ℤ
  explanation : String
  volume : Option ℚ
  liquidity : Option ℚ
  endDate : Option String
deriving DecidableEq, Repr

/-- JavaScript `x || null` on an optional string field: the empty string is
falsy and collapses to `null`. -/
def orNullStr : Option String → Option String
  | some s => if s = "" then none else some s
  | none => none

/-- JavaScript `x || null` on an optional numeric field: `0` is falsy and
collapses to `null`. -/
def orNullNum : Option ℚ → Option ℚ
  | some x => if x = 0 then none else some x
  | none => none

/-- The source's `marketSidePrice` (ai-service.ts line 123): the price paid
for the recommended side. -/
def marketSidePrice (analysis : AIMarketAnalysis) (market : MarketData) : ℚ :=
  if analysis.side = Side.yes then market.currentPrice else 1 - market.currentPrice

/-- The source's `aiFairSidePrice` (ai-service.ts line 125): the judge's
fair value for the recommended side. -/
def aiFairSidePrice (analysis : AIMarketAnalysis) (market : MarketData) : ℚ :=
  if analysis.side = Side.yes then analysis.aiProbability / 100
  else 1 - analysis.aiProbability / 100

/-- The record pushed by `createSignalsFromAnalysis` (ai-service.ts lines
135-148). -/
def signalRecord (topicId : String) (analysis : AIMarketAnalysis)
    (market : MarketData) : InsertSignal :=
  { topicId := topicId
    marketId := market.id
    marketQuestion := market.question
    marketDescription := orNullStr market.description
    side := analysis.side
    marketPrice := marketSidePrice analysis market
    aiFairPrice := aiFairSidePrice analysis market
    edgeBps := jsRound ((aiFairSidePrice analysis market
      - marketSidePrice analysis market) * 10000)
    explanation := analysis.explanation
    volume := orNullNum market.volume
    liquidity := orNullNum market.liquidity
    endDate := orNullStr market.endDate }

/-- Body of the per-opinion loop of `createSignalsFromAnalysis`
(ai-service.ts lines 110-148): skip opinions with `shouldTrade` false or an
unknown `marketId`; compute side-aware prices and the edge; drop edges below
300 bps; otherwise build the signal record. -/
def signalForAnalysis (topicId : String) (markets : List MarketData)
    (analysis : AIMarketAnalysis) : Option InsertSignal :=
  if analysis.shouldTrade = false then none
  else
    match markets.find? (fun m => m.id == analysis.marketId) with
    | none => none
    | some market =>
      let edgeBps := jsRound ((aiFairSidePrice analysis market
        - marketSidePrice analysis market) * 10000)
      if edgeBps < 300 then none
      else some (signalRecord topicId analysis market)

/-- Materializer `createSignalsFromAnalysis` (ai-service.ts lines 103-151): the signal
materializer, processing each opinion independently in order. -/
def createSignalsFromAnalysis (topicId : String) (markets : List MarketData)
    (analyses : List AIMarketAnalysis) : List InsertSignal :=
  analyses.filterMap (signalForAnalysis topicId markets)

/-- Characterization of a processed opinion: with `shouldTrade` true and a
matching candidate, the materializer emits the signal record exactly when
the edge reaches 300 bps. -/
theorem signalForAnalysis_processed (topicId : String) (markets : List MarketData)
    (a : AIMarketAnalysis) (market : MarketData)
    (hTrade : a.shouldTrade = true)
    (hFind : markets.find? (fun m => m.id == a.marketId) = some market) :
    signalForAnalysis topicId markets a =
      if 300 ≤ jsRound ((aiFairSidePrice a market - marketSidePrice a market) * 10000)
      then some (signalRecord topicId a market)
      else none := by
  unfold signalForAnalysis
  rw [hTrade, hFind]
  simp only [Bool.true_eq_false, if_false]
  by_cases h : jsRound ((aiFairSidePrice a market - marketSidePrice a market) * 10000) < 300
  · rw [if_pos h, if_neg (by omega)]
  · rw [if_neg h, if_pos (by omega)]

/-- C1: for every judge opinion with `shouldTrade` true whose `marketId`
matches a candidate, the materializer computes `sidePrice = yesPrice` and
`fairPrice = aiProbability/100` for side YES, and `sidePrice = 1 - yesPrice`,
`fairPrice = 1 - aiProbability/100` for side NO; the edge is
`round((fairPrice - sidePrice) * 10000)`, a nearest-integer rounding, and the
emitted signal carries exactly this `sidePrice` as its market price and this
`fairPrice` as its AI fair price. -/
theorem c1_side_aware_pricing (topicId : String) (markets : List MarketData)
    (analyses : List AIMarketAnalysis) (a : AIMarketAnalysis) (market : MarketData)
    (ha : a ∈ analyses)
    (hTrade : a.shouldTrade = true)
    (hFind : markets.find? (fun m => m.id == a.marketId) = some market)
    (s : InsertSignal) (hs : signalForAnalysis topicId markets a = some s) :
    s.marketPrice = (if a.side = Side.yes then market.currentPrice
      else 1 - market.currentPrice) ∧
    s.aiFairPrice = (if a.side = Side.yes then a.aiProbability / 100
      else 1 - a.aiProbability / 100) ∧
    s.edgeBps = jsRound ((s.aiFairPrice - s.marketPrice) * 10000) ∧
    |(s.aiFairPrice - s.marketPrice) * 10000 - (s.edgeBps : ℚ)| ≤ 1 / 2 ∧
    s ∈ createSignalsFromAnalysis topicId markets analyses := by
  have hmem : s ∈ createSignalsFromAnalysis topicId markets analyses :=
    List.mem_filterMap.mpr ⟨a, ha, hs⟩
  rw [signalForAnalysis_processed topicId markets a market hTrade hFind] at hs
  split at hs
  · rw [Option.some_inj] at hs
    subst hs
    exact ⟨rfl, rfl, rfl, jsRound_near _, hmem⟩
  · exact absurd hs (by simp)

/-- Concrete market used by several witnesses: the spec's end-to-end
scenario market (`yesPrice = 0.10`). -/
def mktElection : MarketData :=
  { id := "m1"
    question := "Will the election be postponed?"
    description := none
    currentPrice := 1 / 10
    volume := some 1000
    liquidity := none
    endDate := none }

/-- Concrete judge opinion used by witnesses: the spec's end-to-end
scenario opinion (`aiProbability = 40`, side YES, `shouldTrade` true). -/
def anaElection : AIMarketAnalysis :=
  { marketId := "m1"
    aiProbability := 40
    side := Side.yes
    explanation := "underpriced"
    shouldTrade := true }

/-- The edge computed on the witness scenario is exactly 3000 bps. -/
theorem edge_election :
    jsRound ((aiFairSidePrice anaElection mktElection
      - marketSidePrice anaElection mktElection) * 10000) = 3000 := by
  have harg : (aiFairSidePrice anaElection mktElection
      - marketSidePrice anaElection mktElection) * 10000 = 3000 := by
    norm_num [aiFairSidePrice, marketSidePrice, anaElection, mktElection]
  rw [harg]
  exact jsRound_eq 3000 3000 (by norm_num) (by norm_num)

/-- Witness for C1: on the spec's end-to-end scenario the emitted signal
carries market price `0.10`, AI fair price `0.40` and edge
`round((0.40 - 0.10) * 10000)`. -/
theorem c1_side_aware_pricing_witness :
    ∃ s : InsertSignal, signalForAnalysis "t1" [mktElection] anaElection = some s ∧
      s.marketPrice = 1 / 10 ∧ s.aiFairPrice = 2 / 5 ∧
      s.edgeBps = jsRound ((s.aiFairPrice - s.marketPrice) * 10000) ∧
      s ∈ createSignalsFromAnalysis "t1" [mktElection] [anaElection] := by
  have hfind : [mktElection].find? (fun m => m.id == anaElection.marketId)
      = some mktElection := rfl
  have hsome : signalForAnalysis "t1" [mktElection] anaElection
      = some (signalRecord "t1" anaElection mktElection) := by
    rw [signalForAnalysis_processed "t1" [mktElection] anaElection mktElection rfl hfind,
      if_pos (by rw [edge_election]; norm_num)]
  have h := c1_side_aware_pricing "t1" [mktElection] [anaElection] anaElection
    mktElection (List.mem_singleton.mpr rfl) rfl hfind _ hsome
  refine ⟨_, hsome, ?_, ?_, h.2.2.1, h.2.2.2.2⟩
  · rw [h.1]
    norm_num [anaElection, mktElection]
  · rw [h.2.1]
    norm_num [anaElection, mktElection]

/-- C2: for every opinion processed by the materializer (`shouldTrade` true
and a matching candidate), a signal is emitted if and only if the computed
edge is at least 300 bps; in the source this is the guard
`if (edgeBps < 300) continue`. -/
theorem c2_materiality_gate (topicId : String) (markets : List MarketData)
    (a : AIMarketAnalysis) (market : MarketData)
    (hTrade : a.shouldTrade = true)
    (hFind : markets.find? (fun m => m.id == a.marketId) = some market) :
    (∃ s, signalForAnalysis topicId markets a = some s) ↔
      300 ≤ jsRound ((aiFairSidePrice a market - marketSidePrice a market) * 10000) := by
  rw [signalForAnalysis_processed topicId markets a market hTrade hFind]
  constructor
  · rintro ⟨s, hs⟩
    by_contra h
    rw [if_neg h] at hs
    exact Option.noConfusion hs
  · intro h
    rw [if_pos h]
    exact ⟨_, rfl⟩

/-- Market quoted exactly at `0.50`, used for the materiality-boundary
witness. -/
def mktHalf : MarketData :=
  { id := "m2"
    question := "Will it happen?"
    description := none
    currentPrice := 1 / 2
    volume := some 5
    liquidity := none
    endDate := none }

/-- Opinion whose computed edge is exactly 300 bps against `mktHalf`. -/
def anaEdge300 : AIMarketAnalysis :=
  { marketId := "m2"
    aiProbability := 53
    side := Side.yes
    explanation := "barely material"
    shouldTrade := true }

/-- Opinion whose computed edge is exactly 299 bps against `mktHalf`. -/
def anaEdge299 : AIMarketAnalysis :=
  { marketId := "m2"
    aiProbability := 5299 / 100
    side := Side.yes
    explanation := "just below the gate"
    shouldTrade := true }

/-- Witness for C2: an edge of exactly 300 bps produces a signal and an edge
of exactly 299 bps produces none. -/
theorem c2_materiality_gate_witness :
    (∃ s, signalForAnalysis "t1" [mktHalf] anaEdge300 = some s) ∧
      signalForAnalysis "t1" [mktHalf] anaEdge299 = none := by
  have hfind300 : [mktHalf].find? (fun m => m.id == anaEdge300.marketId)
      = some mktHalf := rfl
  have hfind299 : [mktHalf].find? (fun m => m.id == anaEdge299.marketId)
      = some mktHalf := rfl
  have hedge300 : jsRound ((aiFairSidePrice anaEdge300 mktHalf
      - marketSidePrice anaEdge300 mktHalf) * 10000) = 300 := by
    have harg : (aiFairSidePrice anaEdge300 mktHalf
        - marketSidePrice anaEdge300 mktHalf) * 10000 = 300 := by
      norm_num [aiFairSidePrice, marketSidePrice, anaEdge300, mktHalf]
    rw [harg]
    exact jsRound_eq 300 300 (by norm_num) (by norm_num)
  have hedge299 : jsRound ((aiFairSidePrice anaEdge299 mktHalf
      - marketSidePrice anaEdge299 mktHalf) * 10000) = 299 := by
    have harg : (aiFairSidePrice anaEdge299 mktHalf
        - marketSidePrice anaEdge299 mktHalf) * 10000 = 299 := by
      norm_num [aiFairSidePrice, marketSidePrice, anaEdge299, mktHalf]
    rw [harg]
    exact jsRound_eq 299 299 (by norm_num) (by norm_num)
  constructor
  · exact (c2_materiality_gate "t1" [mktHalf] anaEdge300 mktHalf rfl hfind300).mpr
      (by rw [hedge300])
  · rcases h : signalForAnalysis "t1" [mktHalf] anaEdge299 with _ | s
    · rfl
    · have h300 := (c2_materiality_gate "t1" [mktHalf] anaEdge299 mktHalf rfl
        hfind299).mp ⟨s, h⟩
      rw [hedge299] at h300
      omega


/-- Outcome of one HTTP call to the CLOB live-quote endpoint, as observed by
`fetchClobPrice` (ai-service.ts lines 176-196): the request can throw
(network error or the 3-second abort), return a non-2xx status, or return a
JSON body whose `price` field `parseFloat`s to a number (`none` models
`NaN`). -/
inductive ClobResponse where
  | fetchError
  | httpError
  | body (price : Option ℚ)
deriving DecidableEq, Repr

/-- Live-quote fetch `fetchClobPrice` (ai-service.ts lines 176-196): returns the quoted price
only when the body parses to a number `p` with `0 ≤ p ≤ 1`; every other
outcome yields `null`. -/
def fetchClobPrice : ClobResponse → Option ℚ
  | ClobResponse.fetchError => none
  | ClobResponse.httpError => none
  | ClobResponse.body none => none
  | ClobResponse.body (some p) => if 0 ≤ p ∧ p ≤ 1 then some p else none

/-- Outcome of the per-candidate enrichment task (ai-service.ts lines
345-352): the candidate's original listing may be missing from the catalog
batch, may carry no usable YES token id, or yields a CLOB call outcome. -/
inductive EnrichOutcome where
  | noOriginal
  | noTokenId
  | quote (r : ClobResponse)
deriving DecidableEq, Repr

/-- The live price produced by one enrichment task: `null` unless the CLOB
call returned a valid probability. -/
def livePriceOf : EnrichOutcome → Option ℚ
  | EnrichOutcome.noOriginal => none
  | EnrichOutcome.noTokenId => none
  | EnrichOutcome.quote r => fetchClobPrice r

/-- A live price is only ever a probability in `[0, 1]` coming from a
successfully parsed quote body. -/
theorem livePriceOf_valid (o : EnrichOutcome) (p : ℚ)
    (hp : livePriceOf o = some p) : 0 ≤ p ∧ p ≤ 1 := by
  rcases o with _ | _ | r
  · exact absurd hp (by simp [livePriceOf])
  · exact absurd hp (by simp [livePriceOf])
  · rcases r with _ | _ | q
    · exact absurd hp (by simp [livePriceOf, fetchClobPrice])
    · exact absurd hp (by simp [livePriceOf, fetchClobPrice])
    · rcases q with _ | v
      · exact absurd hp (by simp [livePriceOf, fetchClobPrice])
      · have hv : (if 0 ≤ v ∧ v ≤ 1 then some v else none) = some p := hp
        by_cases hc : 0 ≤ v ∧ v ≤ 1
        · rw [if_pos hc, Option.some_inj] at hv
          subst hv
          exact hc
        · rw [if_neg hc] at hv
          exact absurd hv (by simp)

/-- The in-place overwrite `market.currentPrice = result.livePrice` applied
through `sortedMarkets.find(...)` (ai-service.ts lines 357-363): only the
first market with the matching id is updated, and only its price field. -/
def updateFirst (id : String) (p : ℚ) : List MarketData → List MarketData
  | [] => []
  | m :: rest =>
    if m.id = id then { m with currentPrice := p } :: rest
    else m :: updateFirst id p rest

/-- One iteration of the result loop (ai-service.ts lines 356-365): a task
that produced no live price leaves the batch alone, otherwise the matching
market's price is overwritten. -/
def enrichStep (oracle : String → EnrichOutcome) (acc : List MarketData)
    (m : MarketData) : List MarketData :=
  match livePriceOf (oracle m.id) with
  | none => acc
  | some p => updateFirst m.id p acc

/-- The CLOB enrichment pass of `fetchMarketsForTopic` (ai-service.ts lines
343-368): one task per market of `sortedMarkets.slice(0, 5)`, each either
updating its own market's price or leaving it unchanged. -/
def enrichMarkets (oracle : String → EnrichOutcome)
    (sortedMarkets : List MarketData) : List MarketData :=
  (sortedMarkets.take 5).foldl (enrichStep oracle) sortedMarkets

/-- What enrichment does to one candidate in isolation. -/
def enrichOne (oracle : String → EnrichOutcome) (m : MarketData) : MarketData :=
  match livePriceOf (oracle m.id) with
  | some p => { m with currentPrice := p }
  | none => m

theorem enrichStep_none (oracle : String → EnrichOutcome) (acc : List MarketData)
    (m : MarketData) (h : livePriceOf (oracle m.id) = none) :
    enrichStep oracle acc m = acc := by
  unfold enrichStep
  rw [h]

theorem enrichStep_some (oracle : String → EnrichOutcome) (acc : List MarketData)
    (m : MarketData) (p : ℚ) (h : livePriceOf (oracle m.id) = some p) :
    enrichStep oracle acc m = updateFirst m.id p acc := by
  unfold enrichStep
  rw [h]

theorem enrichOne_none (oracle : String → EnrichOutcome)
    (m : MarketData) (h : livePriceOf (oracle m.id) = none) :
    enrichOne oracle m = m := by
  unfold enrichOne
  rw [h]

theorem enrichOne_some (oracle : String → EnrichOutcome)
    (m : MarketData) (p : ℚ) (h : livePriceOf (oracle m.id) = some p) :
    enrichOne oracle m = { m with currentPrice := p } := by
  unfold enrichOne
  rw [h]

/-- Budgeted per-position form of the enrichment pass: the first `n`
candidates are each updated from their own oracle outcome, the rest are left
untouched. -/
def enrichBudget (oracle : String → EnrichOutcome) :
    ℕ → List MarketData → List MarketData
  | _, [] => []
  | 0, l => l
  | n + 1, m :: rest => enrichOne oracle m :: enrichBudget oracle n rest

theorem enrichBudget_nil (oracle : String → EnrichOutcome) (n : ℕ) :
    enrichBudget oracle n [] = [] := by
  cases n <;> rfl

theorem enrichBudget_zero (oracle : String → EnrichOutcome)
    (l : List MarketData) : enrichBudget oracle 0 l = l := by
  cases l <;> rfl

theorem enrichBudget_succ_cons (oracle : String → EnrichOutcome) (n : ℕ)
    (m : MarketData) (rest : List MarketData) :
    enrichBudget oracle (n + 1) (m :: rest) =
      enrichOne oracle m :: enrichBudget oracle n rest := rfl

theorem updateFirst_cons_ne (id : String) (p : ℚ) (m : MarketData)
    (rest : List MarketData) (h : m.id ≠ id) :
    updateFirst id p (m :: rest) = m :: updateFirst id p rest := by
  simp only [updateFirst]
  rw [if_neg h]

theorem foldl_enrich_cons (oracle : String → EnrichOutcome) (m : MarketData)
    (rest todo : List MarketData)
    (h : ∀ x ∈ todo, x.id ≠ m.id) :
    todo.foldl (enrichStep oracle) (m :: rest) =
      m :: todo.foldl (enrichStep oracle) rest := by
  induction todo generalizing rest with
  | nil => rfl
  | cons x todoRest ih =>
    have hx : x.id ≠ m.id := h x (List.mem_cons_self x todoRest)
    have hrest : ∀ y ∈ todoRest, y.id ≠ m.id :=
      fun y hy => h y (List.mem_cons_of_mem x hy)
    simp only [List.foldl_cons]
    rcases hlp : livePriceOf (oracle x.id) with _ | p
    · rw [enrichStep_none oracle (m :: rest) x hlp,
        enrichStep_none oracle rest x hlp]
      exact ih rest hrest
    · rw [enrichStep_some oracle (m :: rest) x p hlp,
        enrichStep_some oracle rest x p hlp,
        updateFirst_cons_ne x.id p m rest (fun hc => hx hc.symm)]
      exact ih (updateFirst x.id p rest) hrest

/-- With pairwise-distinct ids, the enrichment fold is the budgeted
per-position map. -/
theorem enrichMarkets_eq_enrichBudget (oracle : String → EnrichOutcome)
    (l : List MarketData) (hnd : (l.map MarketData.id).Nodup) :
    enrichMarkets oracle l = enrichBudget oracle 5 l := by
  unfold enrichMarkets
  suffices h : ∀ (n : ℕ) (l : List MarketData), (l.map MarketData.id).Nodup →
      (l.take n).foldl (enrichStep oracle) l = enrichBudget oracle n l by
    exact h 5 l hnd
  intro n
  induction n with
  | zero =>
    intro l _
    rw [List.take_zero, List.foldl_nil, enrichBudget_zero]
  | succ n ih =>
    intro l hnd
    rcases l with _ | ⟨m, rest⟩
    · rfl
    · simp only [List.map_cons, List.nodup_cons] at hnd
      have hids : ∀ x ∈ rest.take n, x.id ≠ m.id := fun x hx hc =>
        hnd.1 (hc ▸ List.mem_map_of_mem MarketData.id (List.mem_of_mem_take hx))
      simp only [List.take_succ_cons, List.foldl_cons]
      rw [enrichBudget_succ_cons]
      rcases hlp : livePriceOf (oracle m.id) with _ | p
      · rw [enrichStep_none oracle (m :: rest) m hlp,
          enrichOne_none oracle m hlp,
          foldl_enrich_cons oracle m rest (rest.take n) hids,
          ih rest hnd.2]
      · rw [enrichStep_some oracle (m :: rest) m p hlp,
          enrichOne_some oracle m p hlp,
          show updateFirst m.id p (m :: rest) =
            { m with currentPrice := p } :: rest from by
              unfold updateFirst
              rw [if_pos rfl],
          foldl_enrich_cons oracle { m with currentPrice := p } rest
            (rest.take n) hids,
          ih rest hnd.2]

theorem enrichBudget_length (oracle : String → EnrichOutcome) (n : ℕ)
    (l : List MarketData) : (enrichBudget oracle n l).length = l.length := by
  induction l generalizing n with
  | nil => rw [enrichBudget_nil]
  | cons m rest ih =>
    cases n with
    | zero => rw [enrichBudget_zero]
    | succ n =>
      rw [enrichBudget_succ_cons]
      simp only [List.length_cons, ih n]

/-- Pointwise description of the budgeted enrichment. -/
theorem enrichBudget_getElem? (oracle : String → EnrichOutcome) (n : ℕ)
    (l : List MarketData) (i : ℕ) :
    (enrichBudget oracle n l)[i]? =
      (l[i]?).map (fun m => if i < n then enrichOne oracle m else m) := by
  induction l generalizing n i with
  | nil =>
    rw [enrichBudget_nil]
    simp
  | cons m rest ih =>
    cases n with
    | zero =>
      rw [enrichBudget_zero]
      simp only [Nat.not_lt_zero, if_false]
      rcases hone : (m :: rest)[i]? with _ | x <;> rfl
    | succ n =>
      cases i with
      | zero =>
        rw [enrichBudget_succ_cons]
        simp only [List.getElem?_cons_zero, Option.map_some']
        rw [if_pos (show 0 < n + 1 by omega)]
      | succ i =>
        rw [enrichBudget_succ_cons]
        simp only [List.getElem?_cons_succ, Nat.add_lt_add_iff_right]
        exact ih n i

/-- The enrichment pass preserves the batch length. -/
theorem enrichMarkets_length (oracle : String → EnrichOutcome)
    (l : List MarketData) (hnd : (l.map MarketData.id).Nodup) :
    (enrichMarkets oracle l).length = l.length := by
  rw [enrichMarkets_eq_enrichBudget oracle l hnd, enrichBudget_length]

/-- C3: per-candidate CLOB enrichment.  The `i`-th output candidate is a
function of the `i`-th input candidate and its own oracle outcome alone
(first conjunct), so one candidate's failure never affects a sibling; the
price is overwritten only when the fresh quote parses to a probability `p`
with `0 ≤ p ≤ 1` (second conjunct); and for any other outcome the original
record is retained unchanged (third conjunct). -/
theorem c3_enrichment_per_candidate (oracle : String → EnrichOutcome)
    (l : List MarketData) (hnd : (l.map MarketData.id).Nodup)
    (i : ℕ) (mi : MarketData) (hi : l[i]? = some mi) :
    (enrichMarkets oracle l)[i]? =
      some (if i < 5 then enrichOne oracle mi else mi) ∧
    (∀ p, livePriceOf (oracle mi.id) = some p →
      (0 ≤ p ∧ p ≤ 1) ∧ enrichOne oracle mi = { mi with currentPrice := p }) ∧
    (livePriceOf (oracle mi.id) = none → enrichOne oracle mi = mi) := by
  refine ⟨?_, ?_, ?_⟩
  · rw [enrichMarkets_eq_enrichBudget oracle l hnd,
      enrichBudget_getElem? oracle 5 l i, hi]
    rfl
  · exact fun p hp => ⟨livePriceOf_valid (oracle mi.id) p hp,
      enrichOne_some oracle mi p hp⟩
  · exact fun hp => enrichOne_none oracle mi hp

/-- Concrete second market for the C3 witness batch. -/
def mktOther : MarketData :=
  { id := "m3"
    question := "Will the bill pass?"
    description := none
    currentPrice := 3 / 10
    volume := some 700
    liquidity := none
    endDate := none }

/-- Oracle for the C3 witness: a valid quote for `m1`, a timed-out quote for
`m3`. -/
def oracleC3 : String → EnrichOutcome := fun id =>
  if id = "m1" then EnrichOutcome.quote (ClobResponse.body (some (12 / 100)))
  else EnrichOutcome.quote ClobResponse.fetchError

/-- Witness for C3: in a two-candidate batch where the first quote is valid
and the second times out, the first price is overwritten with the quote and
the second candidate is returned unchanged. -/
theorem c3_enrichment_per_candidate_witness :
    (enrichMarkets oracleC3 [mktElection, mktOther])[0]? =
      some { mktElection with currentPrice := 12 / 100 } ∧
    (enrichMarkets oracleC3 [mktElection, mktOther])[1]? = some mktOther := by
  have hnd : (([mktElection, mktOther]).map MarketData.id).Nodup := by decide
  have hlive1 : livePriceOf (oracleC3 mktElection.id) = some (12 / 100) := by
    show (if (0 : ℚ) ≤ 12 / 100 ∧ (12 : ℚ) / 100 ≤ 1
      then some ((12 : ℚ) / 100) else none) = some ((12 : ℚ) / 100)
    rw [if_pos (by norm_num)]
  have hlive2 : livePriceOf (oracleC3 mktOther.id) = none := rfl
  have h0 := c3_enrichment_per_candidate oracleC3 [mktElection, mktOther]
    hnd 0 mktElection rfl
  have h1 := c3_enrichment_per_candidate oracleC3 [mktElection, mktOther]
    hnd 1 mktOther rfl
  constructor
  · rw [h0.1, if_pos (show (0 : ℕ) < 5 by omega),
      (h0.2.1 (12 / 100) hlive1).2]
  · rw [h1.1, if_pos (show (1 : ℕ) < 5 by omega), h1.2.2 hlive2]

/-- Parse outcome of `JSON.parse` for the `outcomePrices` field of a raw listing: the
string may fail to parse, or parse to an array of price strings, each of
which `parseFloat`s to a number or to `NaN` (`none`). -/
inductive PricesJson where
  | malformed
  | parsed (prices : List (Option ℚ))
deriving DecidableEq, Repr

/-- Parse outcome of `JSON.parse` for the `outcomes` field of a raw listing. -/
inductive OutcomesJson where
  | malformed
  | parsed (outcomes : List String)
deriving DecidableEq, Repr

/-- Raw listing record `PolymarketMarket` (ai-service.ts lines 158-172): one raw listing from
the venue catalog.  The `clobTokenIds` field is not modelled here: the token
lookup feeding the live-quote call is absorbed into `EnrichOutcome`.
Optional JSON string fields are `Option` (`none` covers both an absent field
and a falsy empty string). -/
structure PolymarketMarket where
  id : String
  question : String
  groupItemTitle : Option String
  description : Option String
  volume : Option ℚ
  liquidity : Option ℚ
  endDate : Option String
  closed : Bool
  outcomePrices : Option PricesJson
  outcomes : Option OutcomesJson
deriving DecidableEq, Repr

/-- JavaScript `str.split(/\s+/)` over character lists: maximal whitespace
runs separate the pieces; a leading run contributes a leading empty piece
and a trailing run a trailing empty piece.  `acc` holds the current word
reversed. -/
def splitGo : List Char → List Char → List (List Char)
  | acc, [] => [acc.reverse]
  | acc, c :: rest =>
    if c.isWhitespace then
      match rest with
      | [] => [acc.reverse, []]
      | d :: rest' =>
        if d.isWhitespace then splitGo acc (d :: rest')
        else acc.reverse :: splitGo [] (d :: rest')
    else splitGo (c :: acc) rest

/-- Split `keyword.split(/\s+/)` as used by `matchesKeywords`. -/
def jsSplitWs (l : List Char) : List (List Char) := splitGo [] l

theorem splitGo_nil (acc : List Char) : splitGo acc [] = [acc.reverse] := rfl

theorem splitGo_cons_ws_nil (acc : List Char) (c : Char)
    (hc : c.isWhitespace = true) : splitGo acc [c] = [acc.reverse, []] := by
  conv_lhs => rw [splitGo.eq_def]
  dsimp only
  rw [hc]
  simp

theorem splitGo_cons_ws_ws (acc : List Char) (c d : Char) (rest' : List Char)
    (hc : c.isWhitespace = true) (hd : d.isWhitespace = true) :
    splitGo acc (c :: d :: rest') = splitGo acc (d :: rest') := by
  conv_lhs => rw [splitGo.eq_def]
  dsimp only
  rw [hc]
  simp [hd]

theorem splitGo_cons_ws_emit (acc : List Char) (c d : Char) (rest' : List Char)
    (hc : c.isWhitespace = true) (hd : d.isWhitespace = false) :
    splitGo acc (c :: d :: rest') = acc.reverse :: splitGo [] (d :: rest') := by
  conv_lhs => rw [splitGo.eq_def]
  dsimp only
  rw [hc]
  simp [hd]

theorem splitGo_cons_word (acc : List Char) (c : Char) (rest : List Char)
    (hc : c.isWhitespace = false) :
    splitGo acc (c :: rest) = splitGo (c :: acc) rest := by
  conv_lhs => rw [splitGo.eq_def]
  dsimp only
  rw [hc]
  simp

/-- Split invariant: the split is never empty, and every piece is either the
pending word extended by the leading word of the remaining input, or an
infix of the remaining input. -/
theorem splitGo_spec (l : List Char) : ∀ acc : List Char,
    splitGo acc l ≠ [] ∧
      ∀ w ∈ splitGo acc l,
        w = acc.reverse ++ l.takeWhile (fun ch => !ch.isWhitespace) ∨
          w <:+: l := by
  induction l with
  | nil =>
    intro acc
    refine ⟨by simp [splitGo_nil], ?_⟩
    intro w hw
    left
    rw [splitGo_nil, List.mem_singleton] at hw
    subst hw
    simp
  | cons c rest ih =>
    intro acc
    by_cases hcp : c.isWhitespace = true
    · rcases rest with _ | ⟨d, rest'⟩
      · rw [splitGo_cons_ws_nil acc c hcp]
        refine ⟨by simp, ?_⟩
        intro w hw
        simp only [List.mem_cons, List.mem_singleton, List.not_mem_nil,
          or_false] at hw
        rcases hw with hw | hw
        · left
          subst hw
          rw [List.takeWhile_cons_of_neg (by simp [hcp])]
          simp
        · right
          subst hw
          exact ⟨[], [c], by simp⟩
      · by_cases hdp : d.isWhitespace = true
        · rw [splitGo_cons_ws_ws acc c d rest' hcp hdp]
          obtain ⟨hne, hmem⟩ := ih acc
          refine ⟨hne, ?_⟩
          intro w hw
          rcases hmem w hw with hw1 | hw2
          · left
            rw [hw1, List.takeWhile_cons_of_neg (by simp [hdp]),
              List.takeWhile_cons_of_neg (by simp [hcp])]
          · right
            exact hw2.trans ⟨[c], [], by simp⟩
        · have hd' : d.isWhitespace = false := by simpa using hdp
          rw [splitGo_cons_ws_emit acc c d rest' hcp hd']
          obtain ⟨hne, hmem⟩ := ih []
          refine ⟨by simp, ?_⟩
          intro w hw
          simp only [List.mem_cons] at hw
          rcases hw with hw | hw
          · left
            subst hw
            rw [List.takeWhile_cons_of_neg (by simp [hcp])]
            simp
          · right
            rcases hmem w hw with hw1 | hw2
            · rw [hw1]
              simp only [List.reverse_nil, List.nil_append]
              exact ⟨[c], (d :: rest').dropWhile (fun ch => !ch.isWhitespace),
                by simp [List.takeWhile_append_dropWhile]⟩
            · exact hw2.trans ⟨[c], [], by simp⟩
    · have hc' : c.isWhitespace = false := by simpa using hcp
      rw [splitGo_cons_word acc c rest hc']
      obtain ⟨hne, hmem⟩ := ih (c :: acc)
      refine ⟨hne, ?_⟩
      intro w hw
      rcases hmem w hw with hw1 | hw2
      · left
        rw [hw1, List.takeWhile_cons_of_pos (by simp [hc'])]
        simp
      · right
        exact hw2.trans ⟨[c], [], by simp⟩

/-- A split is never the empty list (JavaScript `split` always returns at
least one element). -/
theorem jsSplitWs_ne_nil (l : List Char) : jsSplitWs l ≠ [] :=
  (splitGo_spec l []).1

/-- Every piece of the split is an infix of the split string. -/
theorem jsSplitWs_mem_within (l w : List Char) (hw : w ∈ jsSplitWs l) :
    w <:+: l := by
  rcases (splitGo_spec l []).2 w hw with h | h
  · rw [h]
    simp only [List.reverse_nil, List.nil_append]
    exact ⟨[], l.dropWhile (fun ch => !ch.isWhitespace),
      by simp [List.takeWhile_append_dropWhile]⟩
  · exact h

/-- JavaScript `toLowerCase` over the characters of a string. -/
def lowerChars (s : String) : List Char := s.data.map Char.toLower

/-- JavaScript `String.prototype.includes`: substring containment over
character lists. -/
def charsIncludes (s w : List Char) : Bool := decide (w <:+: s)

/-- JavaScript `array.join(" ")` over the characters of the parts. -/
def joinSpace : List String → List Char
  | [] => []
  | [s] => s.data
  | s :: rest => s.data ++ ' ' :: joinSpace rest

/-- The combined searchable text of `matchesKeywords` (ai-service.ts lines
253-258): question, optional subtitle (`groupItemTitle`) and description,
with falsy (absent or empty) parts dropped, joined by spaces, lowercased. -/
def searchTextOf (m : PolymarketMarket) : List Char :=
  (joinSpace (([m.question] ++ m.groupItemTitle.toList ++
    m.description.toList).filter (fun s => !(s == "")))).map Char.toLower

/-- Relevance test `matchesKeywords` (ai-service.ts lines 252-265): a listing matches when
some keyword is contained whole in the searchable text, or every
whitespace-separated word of the keyword has length greater than 2 and is
contained in the searchable text. -/
def matchesKeywords (m : PolymarketMarket) (keywords : List String) : Bool :=
  let searchText := searchTextOf m
  keywords.any (fun keyword =>
    let lowerKeyword := lowerChars keyword
    charsIncludes searchText lowerKeyword ||
      (jsSplitWs lowerKeyword).all
        (fun word => decide (2 < word.length) && charsIncludes searchText word))

/-- C6: the relevance filter's primary match holds exactly when the combined
lowercased searchable text contains some keyword whole, or contains every
whitespace-separated word of the keyword with each such word longer than 2
characters; in particular a candidate containing an exact keyword phrase is
always matched, and a candidate containing zero keyword words is never
matched. -/
theorem c6_keyword_match (m : PolymarketMarket) (keywords : List String) :
    (matchesKeywords m keywords = true ↔
      ∃ kw ∈ keywords,
        charsIncludes (searchTextOf m) (lowerChars kw) = true ∨
          ∀ w ∈ jsSplitWs (lowerChars kw),
            2 < w.length ∧ charsIncludes (searchTextOf m) w = true) ∧
    (∀ kw ∈ keywords, charsIncludes (searchTextOf m) (lowerChars kw) = true →
      matchesKeywords m keywords = true) ∧
    ((∀ kw ∈ keywords, ∀ w ∈ jsSplitWs (lowerChars kw),
        charsIncludes (searchTextOf m) w = false) →
      matchesKeywords m keywords = false) := by
  have hiff : matchesKeywords m keywords = true ↔
      ∃ kw ∈ keywords,
        charsIncludes (searchTextOf m) (lowerChars kw) = true ∨
          ∀ w ∈ jsSplitWs (lowerChars kw),
            2 < w.length ∧ charsIncludes (searchTextOf m) w = true := by
    unfold matchesKeywords
    simp only [List.any_eq_true, Bool.or_eq_true, List.all_eq_true,
      Bool.and_eq_true, decide_eq_true_iff]
  refine ⟨hiff, ?_, ?_⟩
  · intro kw hkw hinc
    exact hiff.mpr ⟨kw, hkw, Or.inl hinc⟩
  · intro hnone
    rw [Bool.eq_false_iff]
    intro htrue
    rcases hiff.mp htrue with ⟨kw, hkw, hphrase | hwords⟩
    · obtain ⟨w, hwmem⟩ :=
        List.exists_mem_of_ne_nil (jsSplitWs (lowerChars kw))
          (jsSplitWs_ne_nil (lowerChars kw))
      have hwinf : w <:+: lowerChars kw :=
        jsSplitWs_mem_within (lowerChars kw) w hwmem
      have hsub : lowerChars kw <:+: searchTextOf m := of_decide_eq_true hphrase
      have hinc : charsIncludes (searchTextOf m) w = true :=
        decide_eq_true (hwinf.trans hsub)
      rw [hnone kw hkw w hwmem] at hinc
      exact absurd hinc (by simp)
    · obtain ⟨w, hwmem⟩ :=
        List.exists_mem_of_ne_nil (jsSplitWs (lowerChars kw))
          (jsSplitWs_ne_nil (lowerChars kw))
      have hinc := (hwords w hwmem).2
      rw [hnone kw hkw w hwmem] at hinc
      exact absurd hinc (by simp)

/-- Concrete raw listing used by witnesses: an open election market with a
valid price vector. -/
def pmElection : PolymarketMarket :=
  { id := "p1"
    question := "Will the election be postponed?"
    groupItemTitle := none
    description := none
    volume := some 1000
    liquidity := none
    endDate := none
    closed := false
    outcomePrices := some (PricesJson.parsed [some 1, some 0])
    outcomes := some (OutcomesJson.parsed ["Yes", "No"]) }

/-- Witness for C6: the election listing matches the keyword `election`
(exact phrase present) and does not match `quantum` (no keyword word
present). -/
theorem c6_keyword_match_witness :
    matchesKeywords pmElection ["election"] = true ∧
      matchesKeywords pmElection ["quantum"] = false := by
  constructor
  · exact (c6_keyword_match pmElection ["election"]).2.1 "election"
      (List.mem_singleton.mpr rfl) (by decide)
  · exact (c6_keyword_match pmElection ["quantum"]).2.2 (by decide)

/-- The outcome-name test of `parseYesPrice` and `getYesTokenId`
(ai-service.ts lines 207, 224): an outcome is the affirmative one when its
lowercased name is `"yes"` or `"true"`. -/
def isYesOutcome (o : String) : Bool :=
  lowerChars o == "yes".data || lowerChars o == "true".data

/-- The guarded price acceptance of `parseYesPrice` (ai-service.ts lines
228-231 and 236-239): a `parseFloat` result is accepted only when it is a
number in `[0, 1]`. -/
def validProb : Option ℚ → Option ℚ
  | some p => if 0 ≤ p ∧ p ≤ 1 then some p else none
  | none => none

/-- Price parsing `parseYesPrice` (ai-service.ts lines 217-249): parse the affirmative
outcome's price from the listing's price vector.  Falsy or malformed
`outcomePrices` yield `null`; a malformed `outcomes` string throws and is
caught, yielding `null`; otherwise the price at the affirmative index is
tried (a falsy, `NaN` or out-of-range entry falls through), then, for a
two-outcome listing, the first price as a fallback. -/
def parseYesPrice (m : PolymarketMarket) : Option ℚ :=
  match m.outcomePrices with
  | none => none
  | some PricesJson.malformed => none
  | some (PricesJson.parsed prices) =>
    match (match m.outcomes with
      | none => some ["Yes", "No"]
      | some OutcomesJson.malformed => none
      | some (OutcomesJson.parsed os) => some os) with
    | none => none
    | some outcomes =>
      match (match outcomes.findIdx? isYesOutcome with
        | some yesIndex =>
          match prices[yesIndex]? with
          | some entry => validProb entry
          | none => none
        | none => none) with
      | some p => some p
      | none =>
        if outcomes.length = 2 ∧ 1 ≤ prices.length then
          match prices[0]? with
          | some entry => validProb entry
          | none => none
        else none

/-- The `MarketData` record built from a raw listing and its parsed price
(ai-service.ts lines 308-317 and 365-374). -/
def toMarketData (m : PolymarketMarket) (gammaPrice : ℚ) : MarketData :=
  { id := m.id
    question := m.question
    description := m.description
    currentPrice := gammaPrice
    volume := m.volume
    liquidity := m.liquidity
    endDate := m.endDate }

/-- The keyword-matching loop of `fetchMarketsForTopic` (ai-service.ts lines
296-318): skip closed listings, skip listings matching no keyword, skip
listings with no reliable price; keep the rest with their parsed price. -/
def matchedMarkets (keywords : List String)
    (allMarkets : List PolymarketMarket) : List MarketData :=
  allMarkets.filterMap (fun m =>
    if m.closed then none
    else if matchesKeywords m keywords then
      match parseYesPrice m with
      | some gammaPrice => some (toMarketData m gammaPrice)
      | none => none
    else none)

/-- JavaScript `x.volume || 0` as used by both sort comparators. -/
def volKey (v : Option ℚ) : ℚ := v.getD 0

/-- The comparator `(a, b) => (b.volume || 0) - (a.volume || 0)` on
candidates, as a stable-sort ordering predicate: `a` may precede `b` when
the comparator is non-positive. -/
def volDesc (a b : MarketData) : Bool :=
  decide (volKey b.volume ≤ volKey a.volume)

/-- The same comparator over raw listings (fallback path). -/
def pmVolDesc (a b : PolymarketMarket) : Bool :=
  decide (volKey b.volume ≤ volKey a.volume)

/-- The ranking filter `typeof m.volume === 'number' && m.volume > 0`
(ai-service.ts line 322). -/
def hasPositiveVolume (m : MarketData) : Bool :=
  match m.volume with
  | some v => decide (0 < v)
  | none => false

/-- The ranking step of `fetchMarketsForTopic` (ai-service.ts lines
320-324): keep candidates with a positive numeric volume, sort descending by
volume (stable), truncate to the top 10. -/
def rankMarkets (matching : List MarketData) : List MarketData :=
  ((matching.filter hasPositiveVolume).mergeSort volDesc).take 10

/-- Modelled from the spec: the ranking step as §4.2 words it — only
candidates with no numeric volume are excluded from the ranking.  Used to
compare the spec's description with the source's `rankMarkets`. -/
def rankMarketsSpec (matching : List MarketData) : List MarketData :=
  ((matching.filter (fun m => m.volume.isSome)).mergeSort volDesc).take 10

/-- The low-yield fallback pool (ai-service.ts lines 357-369): open listings
with a parsable price, sorted descending by volume, top 5, each carrying its
parsed price. -/
def topVolumeFallback (allMarkets : List PolymarketMarket) : List MarketData :=
  (((allMarkets.filter (fun m => !m.closed && (parseYesPrice m).isSome)).mergeSort
    pmVolDesc).take 5).filterMap
    (fun m => (parseYesPrice m).map (toMarketData m))

/-- The fallback merge loop (ai-service.ts lines 371-378): the set of
existing ids is computed once; each fallback candidate whose id is not in it
is pushed, and the loop breaks once the merged list reaches 10. -/
def mergeCapped (existingIds : List String) :
    List MarketData → List MarketData → List MarketData
  | acc, [] => acc
  | acc, m :: rest =>
    if m.id ∈ existingIds then mergeCapped existingIds acc rest
    else if 10 ≤ acc.length + 1 then acc ++ [m]
    else mergeCapped existingIds (acc ++ [m]) rest

/-- Outcome of the catalog HTTP call of `fetchMarketsForTopic`
(ai-service.ts lines 276-290): network error or 15-second abort, non-2xx
status, or a parsed listing array. -/
inductive CatalogOutcome where
  | fetchError
  | httpError
  | ok (markets : List PolymarketMarket)

/-- Market discovery `fetchMarketsForTopic` (ai-service.ts lines 268-393): on any catalog
failure return the empty set; otherwise filter by keywords, rank by volume,
enrich the top 5 in place, and, when fewer than 3 candidates survived, merge
in the top-volume fallback (the source computes `sortedMarkets` once and
mutates it in place; the enrichment leaves its length and ids unchanged, so
the in-place update is written here as `enrichMarkets`). -/
def fetchMarketsForTopic (keywords : List String) (catalog : CatalogOutcome)
    (oracle : String → EnrichOutcome) : List MarketData :=
  match catalog with
  | CatalogOutcome.fetchError => []
  | CatalogOutcome.httpError => []
  | CatalogOutcome.ok allMarkets =>
    if (enrichMarkets oracle (rankMarkets (matchedMarkets keywords allMarkets))).length < 3 then
      mergeCapped
        ((enrichMarkets oracle (rankMarkets (matchedMarkets keywords allMarkets))).map
          MarketData.id)
        (enrichMarkets oracle (rankMarkets (matchedMarkets keywords allMarkets)))
        (topVolumeFallback allMarkets)
    else enrichMarkets oracle (rankMarkets (matchedMarkets keywords allMarkets))

/-- Outcome of the judge call of `analyzeMarkets` (ai-service.ts lines
73-100): the client call can throw, the response content can be missing
(`"No response from AI"`), `JSON.parse` can throw, or the parse succeeds and
`parsed.analyses || []` is returned. -/
inductive JudgeOutcome where
  | callError
  | noContent
  | badJson
  | ok (analyses : List AIMarketAnalysis)

/-- Fair-value estimation `analyzeMarkets` (ai-service.ts lines 32-100): an empty batch returns no
opinions without calling the judge; otherwise every judge failure is
rethrown to the caller (`Except.error`). -/
def analyzeMarkets (markets : List MarketData) (judge : JudgeOutcome) :
    Except String (List AIMarketAnalysis) :=
  if markets.isEmpty then Except.ok []
  else
    match judge with
    | JudgeOutcome.callError => Except.error "AI analysis error"
    | JudgeOutcome.noContent => Except.error "No response from AI"
    | JudgeOutcome.badJson => Except.error "AI analysis error"
    | JudgeOutcome.ok analyses => Except.ok analyses

/-- The four user-visible outcomes of the scan endpoint (routes.ts lines
136-173): no markets found, no significant mispricings, `n` signals found,
or a hard 500 error. -/
inductive ScanResult where
  | noMarkets
  | noMispricings
  | found (signals : List InsertSignal)
  | hardError (msg : String)
deriving DecidableEq, Repr

/-- The scan workflow of `POST /api/topics/:id/scan` (routes.ts lines
136-173) after the topic lookup: fetch markets (failures absorbed into the
empty set), bail out early on an empty set, judge the batch (a judge failure
throws, reaching the handler's catch as a hard error), materialize signals,
and report the distinct empty outcome when nothing was material. -/
def scanTopic (topicId : String) (keywords : List String)
    (catalog : CatalogOutcome) (oracle : String → EnrichOutcome)
    (judge : JudgeOutcome) : ScanResult :=
  if (fetchMarketsForTopic keywords catalog oracle).isEmpty then
    ScanResult.noMarkets
  else
    match analyzeMarkets (fetchMarketsForTopic keywords catalog oracle) judge with
    | Except.error e => ScanResult.hardError e
    | Except.ok analyses =>
      if (createSignalsFromAnalysis topicId
          (fetchMarketsForTopic keywords catalog oracle) analyses).isEmpty then
        ScanResult.noMispricings
      else
        ScanResult.found (createSignalsFromAnalysis topicId
          (fetchMarketsForTopic keywords catalog oracle) analyses)

/-- Whether the judge call failed outright. -/
def judgeFailed : JudgeOutcome → Bool
  | JudgeOutcome.ok _ => false
  | _ => true

/-- The signals a scan outcome commits to storage: only the `found` outcome
carries any. -/
def signalsCreated : ScanResult → List InsertSignal
  | ScanResult.found signals => signals
  | _ => []

/-- Signal lifecycle status (shared/schema.ts line 53). -/
inductive SignalStatus where
  | active
  | dismissed
  | added
deriving DecidableEq, Repr

/-- Status of a freshly created signal row: `insertSignalSchema` omits
`status` (shared/schema.ts lines 120-124) and the column defaults to
`"active"` (line 53). -/
def initialStatus : SignalStatus := SignalStatus.active

/-- Storage update `storage.updateSignalStatus` (server/storage.ts lines 212-217): sets the
requested status unconditionally; the row's current status is never
consulted. -/
def updateSignalStatus (_current : SignalStatus)
    (requested : SignalStatus) : SignalStatus :=
  requested

/-- Request-body validation of `PATCH /api/signals/:id`
(`updateSignalSchema`, routes.ts lines 22-24): the status must be one of
`active`, `dismissed`, `added`. -/
def parseStatus : String → Option SignalStatus
  | "active" => some SignalStatus.active
  | "dismissed" => some SignalStatus.dismissed
  | "added" => some SignalStatus.added
  | _ => none

/-- The PATCH handler (routes.ts lines 193-210): validate the body, then
apply the update; `none` models the 400 response on a bad body. -/
def patchSignal (current : SignalStatus) (body : String) : Option SignalStatus :=
  (parseStatus body).map (updateSignalStatus current)

/-- Oracle returning no token id for every candidate (no enrichment). -/
def oracleW : String → EnrichOutcome := fun _ => EnrichOutcome.noTokenId

/-- Oracle returning a valid live quote of 0 for every candidate. -/
def oracleQ : String → EnrichOutcome :=
  fun _ => EnrichOutcome.quote (ClobResponse.body (some 0))

/-- A keyword-matched candidate with numeric volume 0. -/
def mktZeroVol : MarketData :=
  { id := "z1"
    question := "Will turnout be low?"
    description := none
    currentPrice := 1 / 2
    volume := some 0
    liquidity := none
    endDate := none }

theorem updateFirst_length (id : String) (p : ℚ) (l : List MarketData) :
    (updateFirst id p l).length = l.length := by
  induction l with
  | nil => rfl
  | cons m rest ih =>
    simp only [updateFirst]
    split
    · rfl
    · simp only [List.length_cons, ih]

theorem enrichStep_length (oracle : String → EnrichOutcome)
    (acc : List MarketData) (m : MarketData) :
    (enrichStep oracle acc m).length = acc.length := by
  unfold enrichStep
  rcases livePriceOf (oracle m.id) with _ | p
  · rfl
  · exact updateFirst_length m.id p acc

theorem foldl_enrichStep_length (oracle : String → EnrichOutcome)
    (todo : List MarketData) :
    ∀ acc : List MarketData,
      (todo.foldl (enrichStep oracle) acc).length = acc.length := by
  induction todo with
  | nil => intro acc; rfl
  | cons m rest ih =>
    intro acc
    rw [List.foldl_cons, ih (enrichStep oracle acc m), enrichStep_length]

/-- The enrichment pass preserves the batch length, unconditionally. -/
theorem enrichMarkets_length_eq (oracle : String → EnrichOutcome)
    (l : List MarketData) : (enrichMarkets oracle l).length = l.length := by
  unfold enrichMarkets
  exact foldl_enrichStep_length oracle (l.take 5) l

/-- Every ranked candidate is a matched candidate with positive numeric
volume. -/
theorem rankMarkets_subset (matching : List MarketData) (c : MarketData)
    (hc : c ∈ rankMarkets matching) :
    c ∈ matching ∧ hasPositiveVolume c = true := by
  unfold rankMarkets at hc
  have h1 : c ∈ (matching.filter hasPositiveVolume).mergeSort volDesc :=
    List.mem_of_mem_take hc
  have h2 : c ∈ matching.filter hasPositiveVolume :=
    (List.mergeSort_perm (matching.filter hasPositiveVolume) volDesc).mem_iff.mp h1
  exact List.mem_filter.mp h2

theorem hasPositiveVolume_spec (c : MarketData)
    (h : hasPositiveVolume c = true) : ∃ v, c.volume = some v ∧ 0 < v := by
  unfold hasPositiveVolume at h
  rcases hv : c.volume with _ | v
  · rw [hv] at h
    exact absurd h (by simp)
  · rw [hv] at h
    exact ⟨v, rfl, by simpa using h⟩

theorem rankMarkets_length_le (matching : List MarketData) :
    (rankMarkets matching).length ≤ matching.length := by
  unfold rankMarkets
  calc ((((matching.filter hasPositiveVolume).mergeSort volDesc)).take 10).length
      ≤ ((matching.filter hasPositiveVolume).mergeSort volDesc).length := by
        rw [List.length_take]
        exact min_le_right _ _
    _ = (matching.filter hasPositiveVolume).length := List.length_mergeSort _
    _ ≤ matching.length := List.length_filter_le _ _

/-- Every matched candidate originates from an open, keyword-matching
listing whose price vector parsed, and carries that parsed price. -/
theorem matchedMarkets_mem (keywords : List String)
    (allMarkets : List PolymarketMarket) (c : MarketData)
    (hc : c ∈ matchedMarkets keywords allMarkets) :
    ∃ pm ∈ allMarkets, pm.closed = false ∧ matchesKeywords pm keywords = true ∧
      pm.id = c.id ∧ parseYesPrice pm = some c.currentPrice ∧
      c = toMarketData pm c.currentPrice := by
  rcases List.mem_filterMap.mp hc with ⟨pm, hpm, hf⟩
  refine ⟨pm, hpm, ?_⟩
  rcases hclosed : pm.closed with _ | _
  · rw [hclosed] at hf
    simp only [Bool.false_eq_true, if_false] at hf
    rcases hmk : matchesKeywords pm keywords with _ | _
    · rw [hmk] at hf
      exact absurd hf (by simp)
    · rw [hmk] at hf
      simp only [if_true] at hf
      rcases hpp : parseYesPrice pm with _ | q
      · rw [hpp] at hf
        exact absurd hf (by simp)
      · rw [hpp] at hf
        simp only [Option.some_inj] at hf
        subst hf
        exact ⟨rfl, rfl, rfl, rfl, rfl⟩
  · rw [hclosed] at hf
    exact absurd hf (by simp)

/-- Every fallback candidate originates from an open listing whose price
vector parsed, and carries that parsed price. -/
theorem topVolumeFallback_mem (allMarkets : List PolymarketMarket)
    (c : MarketData) (hc : c ∈ topVolumeFallback allMarkets) :
    ∃ pm ∈ allMarkets, pm.closed = false ∧ pm.id = c.id ∧
      parseYesPrice pm = some c.currentPrice := by
  unfold topVolumeFallback at hc
  rcases List.mem_filterMap.mp hc with ⟨pm, hpm5, hf⟩
  have hpmSorted : pm ∈ (allMarkets.filter
      (fun m => !m.closed && (parseYesPrice m).isSome)).mergeSort pmVolDesc :=
    List.mem_of_mem_take hpm5
  have hpmFil : pm ∈ allMarkets.filter
      (fun m => !m.closed && (parseYesPrice m).isSome) :=
    (List.mergeSort_perm _ pmVolDesc).mem_iff.mp hpmSorted
  obtain ⟨hpmAll, hpred⟩ := List.mem_filter.mp hpmFil
  rcases hpp : parseYesPrice pm with _ | q
  · rw [hpp] at hf
    exact absurd hf (by simp)
  · rw [hpp] at hf
    simp only [Option.map_some', Option.some_inj] at hf
    subst hf
    refine ⟨pm, hpmAll, ?_, rfl, hpp⟩
    simp only [Bool.and_eq_true, Bool.not_eq_true'] at hpred
    exact hpred.1

theorem mergeCapped_mem (ids : List String) (todo : List MarketData) :
    ∀ (acc : List MarketData) (x : MarketData),
      x ∈ mergeCapped ids acc todo → x ∈ acc ∨ x ∈ todo := by
  induction todo with
  | nil =>
    intro acc x hx
    exact Or.inl hx
  | cons m rest ih =>
    intro acc x hx
    rw [show mergeCapped ids acc (m :: rest) =
        (if m.id ∈ ids then mergeCapped ids acc rest
          else if 10 ≤ acc.length + 1 then acc ++ [m]
          else mergeCapped ids (acc ++ [m]) rest) from rfl] at hx
    split at hx
    · rcases ih acc x hx with h | h
      · exact Or.inl h
      · exact Or.inr (List.mem_cons_of_mem m h)
    · split at hx
      · rcases List.mem_append.mp hx with h | h
        · exact Or.inl h
        · simp only [List.mem_singleton] at h
          exact Or.inr (h ▸ List.mem_cons_self m rest)
      · rcases ih (acc ++ [m]) x hx with h | h
        · rcases List.mem_append.mp h with h1 | h1
          · exact Or.inl h1
          · simp only [List.mem_singleton] at h1
            exact Or.inr (h1 ▸ List.mem_cons_self m rest)
        · exact Or.inr (List.mem_cons_of_mem m h)

/-- When the merged result cannot reach the cap, the merge is exactly an
append of the non-duplicate fallback candidates. -/
theorem mergeCapped_no_cap (ids : List String) (todo : List MarketData) :
    ∀ acc : List MarketData, acc.length + todo.length < 10 →
      mergeCapped ids acc todo =
        acc ++ todo.filter (fun m => !(ids.contains m.id)) := by
  induction todo with
  | nil =>
    intro acc _
    simp [mergeCapped]
  | cons m rest ih =>
    intro acc h
    rw [List.length_cons] at h
    by_cases hid : m.id ∈ ids
    · rw [show mergeCapped ids acc (m :: rest) = mergeCapped ids acc rest from by
        rw [show mergeCapped ids acc (m :: rest) =
            (if m.id ∈ ids then mergeCapped ids acc rest
              else if 10 ≤ acc.length + 1 then acc ++ [m]
              else mergeCapped ids (acc ++ [m]) rest) from rfl, if_pos hid]]
      rw [ih acc (by omega), List.filter_cons_of_neg (by simp [hid])]
    · have hcap : ¬ (10 ≤ acc.length + 1) := by omega
      rw [show mergeCapped ids acc (m :: rest) =
          mergeCapped ids (acc ++ [m]) rest from by
        rw [show mergeCapped ids acc (m :: rest) =
            (if m.id ∈ ids then mergeCapped ids acc rest
              else if 10 ≤ acc.length + 1 then acc ++ [m]
              else mergeCapped ids (acc ++ [m]) rest) from rfl,
          if_neg hid, if_neg hcap]]
      rw [ih (acc ++ [m]) (by rw [List.length_append]; simp; omega),
        List.filter_cons_of_pos (by simp [hid])]
      simp

/-- Every enriched candidate is an input candidate either unchanged or with
its price overwritten by its own live quote. -/
theorem enrichMarkets_mem (oracle : String → EnrichOutcome)
    (l : List MarketData) (hnd : (l.map MarketData.id).Nodup)
    (c : MarketData) (hc : c ∈ enrichMarkets oracle l) :
    ∃ c0 ∈ l, c0.id = c.id ∧
      (c = c0 ∨ ∃ p, livePriceOf (oracle c0.id) = some p ∧
        c = { c0 with currentPrice := p }) := by
  rw [enrichMarkets_eq_enrichBudget oracle l hnd] at hc
  rcases List.mem_iff_getElem?.mp hc with ⟨i, hi⟩
  rw [enrichBudget_getElem?] at hi
  rcases hli : l[i]? with _ | c0
  · rw [hli] at hi
    exact absurd hi (by simp)
  · rw [hli] at hi
    simp only [Option.map_some', Option.some_inj] at hi
    have hc0 : c0 ∈ l := List.mem_iff_getElem?.mpr ⟨i, hli⟩
    by_cases h5 : i < 5
    · rw [if_pos h5] at hi
      rcases hlp : livePriceOf (oracle c0.id) with _ | p
      · rw [enrichOne_none oracle c0 hlp] at hi
        exact ⟨c0, hc0, by rw [← hi], Or.inl hi.symm⟩
      · rw [enrichOne_some oracle c0 p hlp] at hi
        exact ⟨c0, hc0, by rw [← hi], Or.inr ⟨p, hlp, hi.symm⟩⟩
    · rw [if_neg h5] at hi
      exact ⟨c0, hc0, by rw [← hi], Or.inl hi.symm⟩

/-- Unfolding of the pipeline on a successful catalog response. -/
theorem fetchMarketsForTopic_ok (keywords : List String)
    (allMarkets : List PolymarketMarket) (oracle : String → EnrichOutcome) :
    fetchMarketsForTopic keywords (CatalogOutcome.ok allMarkets) oracle =
      (if (enrichMarkets oracle
          (rankMarkets (matchedMarkets keywords allMarkets))).length < 3 then
        mergeCapped
          ((enrichMarkets oracle
            (rankMarkets (matchedMarkets keywords allMarkets))).map MarketData.id)
          (enrichMarkets oracle (rankMarkets (matchedMarkets keywords allMarkets)))
          (topVolumeFallback allMarkets)
      else enrichMarkets oracle
        (rankMarkets (matchedMarkets keywords allMarkets))) := rfl

/-- C7 counterexample: a keyword-matched candidate whose numeric volume is 0
is excluded from the ranking even though it has a numeric volume —
the source requires `volume > 0`, not merely a numeric volume, so the code
diverges from the claim's description of the ranking on this input. -/
theorem c7_zero_volume_counterexample :
    mktZeroVol.volume.isSome = true ∧
      rankMarkets [mktZeroVol] = [] ∧
      rankMarketsSpec [mktZeroVol] = [mktZeroVol] := by
  refine ⟨rfl, ?_, ?_⟩
  · unfold rankMarkets
    rw [List.filter_cons_of_neg (by decide), List.filter_nil,
      List.mergeSort_nil, List.take_nil]
  · unfold rankMarketsSpec
    rw [List.filter_cons_of_pos (by decide), List.filter_nil,
      List.mergeSort_singleton]
    rfl

/-- C7 (amended): the ranking output is the keyword-matched candidates
having a numeric volume strictly greater than 0, in descending volume order,
truncated to at most the top 10; candidates with no numeric volume and
candidates with volume 0 (or negative) are both excluded from the ranking. -/
theorem c7_ranking_amended (matching : List MarketData) :
    rankMarkets matching =
      ((matching.filter hasPositiveVolume).mergeSort volDesc).take 10 ∧
    (rankMarkets matching).Pairwise
      (fun a b => volKey b.volume ≤ volKey a.volume) ∧
    (∀ c ∈ rankMarkets matching,
      c ∈ matching ∧ ∃ v, c.volume = some v ∧ 0 < v) ∧
    (rankMarkets matching).length ≤ 10 := by
  refine ⟨rfl, ?_, ?_, ?_⟩
  · have htrans : ∀ a b c : MarketData, volDesc a b = true → volDesc b c = true →
        volDesc a c = true := by
      intro a b c hab hbc
      have h1 : volKey b.volume ≤ volKey a.volume := of_decide_eq_true hab
      have h2 : volKey c.volume ≤ volKey b.volume := of_decide_eq_true hbc
      exact decide_eq_true (le_trans h2 h1)
    have htotal : ∀ a b : MarketData, (volDesc a b || volDesc b a) = true := by
      intro a b
      rw [Bool.or_eq_true]
      rcases le_total (volKey b.volume) (volKey a.volume) with h | h
      · exact Or.inl (decide_eq_true h)
      · exact Or.inr (decide_eq_true h)
    have hs := List.sorted_mergeSort htrans htotal (matching.filter hasPositiveVolume)
    have hs' : ((matching.filter hasPositiveVolume).mergeSort volDesc).Pairwise
        (fun a b => volKey b.volume ≤ volKey a.volume) :=
      hs.imp (fun hab => of_decide_eq_true hab)
    exact List.Pairwise.sublist (List.take_sublist 10 _) hs'
  · intro c hc
    obtain ⟨hmem, hpos⟩ := rankMarkets_subset matching c hc
    exact ⟨hmem, hasPositiveVolume_spec c hpos⟩
  · unfold rankMarkets
    rw [List.length_take]
    exact min_le_left _ _

/-- Witness for C7 (amended): the ranking at the counterexample input obeys
the amended cap. -/
theorem c7_ranking_amended_witness : (rankMarkets [mktZeroVol]).length ≤ 10 :=
  (c7_ranking_amended [mktZeroVol]).2.2.2

/-- C8: whenever fewer than 3 candidates matched the keyword filter, the
result is the enriched ranked list with the top-5-by-volume fallback
(open listings with a parsable price, keyword-blind) merged in without
re-adding ids already present, and the merged result stays within the cap
of 10. -/
theorem c8_low_yield_fallback (keywords : List String)
    (allMarkets : List PolymarketMarket) (oracle : String → EnrichOutcome)
    (hcount : (matchedMarkets keywords allMarkets).length < 3) :
    fetchMarketsForTopic keywords (CatalogOutcome.ok allMarkets) oracle =
      enrichMarkets oracle (rankMarkets (matchedMarkets keywords allMarkets)) ++
        (topVolumeFallback allMarkets).filter (fun m =>
          !(((enrichMarkets oracle
            (rankMarkets (matchedMarkets keywords allMarkets))).map
              MarketData.id).contains m.id)) ∧
    (fetchMarketsForTopic keywords (CatalogOutcome.ok allMarkets) oracle).length ≤ 10 ∧
    (topVolumeFallback allMarkets).length ≤ 5 ∧
    (∀ c ∈ topVolumeFallback allMarkets, ∃ pm ∈ allMarkets,
      pm.closed = false ∧ pm.id = c.id ∧
        parseYesPrice pm = some c.currentPrice) := by
  have henr : (enrichMarkets oracle
      (rankMarkets (matchedMarkets keywords allMarkets))).length
      = (rankMarkets (matchedMarkets keywords allMarkets)).length :=
    enrichMarkets_length_eq _ _
  have hrle := rankMarkets_length_le (matchedMarkets keywords allMarkets)
  have hlt : (enrichMarkets oracle
      (rankMarkets (matchedMarkets keywords allMarkets))).length < 3 := by omega
  have htop : (topVolumeFallback allMarkets).length ≤ 5 := by
    unfold topVolumeFallback
    refine le_trans (List.length_filterMap_le _ _) ?_
    rw [List.length_take]
    exact min_le_left _ _
  have heq : fetchMarketsForTopic keywords (CatalogOutcome.ok allMarkets) oracle =
      mergeCapped
        ((enrichMarkets oracle
          (rankMarkets (matchedMarkets keywords allMarkets))).map MarketData.id)
        (enrichMarkets oracle (rankMarkets (matchedMarkets keywords allMarkets)))
        (topVolumeFallback allMarkets) := by
    rw [fetchMarketsForTopic_ok, if_pos hlt]
  have hmerge := mergeCapped_no_cap
    ((enrichMarkets oracle
      (rankMarkets (matchedMarkets keywords allMarkets))).map MarketData.id)
    (topVolumeFallback allMarkets)
    (enrichMarkets oracle (rankMarkets (matchedMarkets keywords allMarkets)))
    (by omega)
  refine ⟨?_, ?_, htop, fun c hc => topVolumeFallback_mem allMarkets c hc⟩
  · rw [heq, hmerge]
  · rw [heq, hmerge, List.length_append]
    have hfle : ((topVolumeFallback allMarkets).filter (fun m =>
        !(((enrichMarkets oracle
          (rankMarkets (matchedMarkets keywords allMarkets))).map
            MarketData.id).contains m.id))).length
        ≤ (topVolumeFallback allMarkets).length := List.length_filter_le _ _
    omega

/-- Witness for C8: a one-listing catalog matching no keyword triggers the
fallback; the cap and the merge shape hold at this input. -/
theorem c8_low_yield_fallback_witness :
    fetchMarketsForTopic ["zzz"] (CatalogOutcome.ok [pmElection]) oracleW =
      enrichMarkets oracleW (rankMarkets (matchedMarkets ["zzz"] [pmElection])) ++
        (topVolumeFallback [pmElection]).filter (fun m =>
          !(((enrichMarkets oracleW
            (rankMarkets (matchedMarkets ["zzz"] [pmElection]))).map
              MarketData.id).contains m.id)) ∧
    (fetchMarketsForTopic ["zzz"] (CatalogOutcome.ok [pmElection]) oracleW).length ≤ 10 := by
  have h := c8_low_yield_fallback ["zzz"] [pmElection] oracleW (by decide)
  exact ⟨h.1, h.2.1⟩

/-- Concrete evaluation of the pipeline on a catalog whose single listing
matches no keyword: everything flows through the fallback, for any
enrichment oracle. -/
theorem fetch_keywordless_eval (oracle : String → EnrichOutcome) :
    fetchMarketsForTopic ["zzz"] (CatalogOutcome.ok [pmElection]) oracle =
      [toMarketData pmElection 1] := by
  have hrank : rankMarkets (matchedMarkets ["zzz"] [pmElection]) = [] := by
    rw [show matchedMarkets ["zzz"] [pmElection] = [] from by decide]
    unfold rankMarkets
    rw [List.filter_nil, List.mergeSort_nil, List.take_nil]
  have htop : topVolumeFallback [pmElection] = [toMarketData pmElection 1] := by
    unfold topVolumeFallback
    rw [show [pmElection].filter (fun m => !m.closed && (parseYesPrice m).isSome)
        = [pmElection] from by decide]
    rw [List.mergeSort_singleton]
    rw [show ([pmElection].take 5) = [pmElection] from rfl]
    rw [show ([pmElection].filterMap fun m => (parseYesPrice m).map (toMarketData m))
        = [toMarketData pmElection 1] from by decide]
  rw [fetchMarketsForTopic_ok, hrank]
  rw [show enrichMarkets oracle [] = [] from rfl]
  rw [if_pos (by decide)]
  rw [htop]
  simp [mergeCapped]

/-- Helper for C5: every candidate of the enriched ranked list traces back
to an open catalog listing with a parsable price, carrying either that
parsed price or its own valid live quote. -/
theorem enriched_candidate_source (keywords : List String)
    (allMarkets : List PolymarketMarket) (oracle : String → EnrichOutcome)
    (hnd : ((rankMarkets (matchedMarkets keywords allMarkets)).map
      MarketData.id).Nodup)
    (c : MarketData)
    (hc : c ∈ enrichMarkets oracle
      (rankMarkets (matchedMarkets keywords allMarkets))) :
    ∃ pm ∈ allMarkets, pm.id = c.id ∧ (∃ q, parseYesPrice pm = some q) ∧
      (parseYesPrice pm = some c.currentPrice ∨
        livePriceOf (oracle pm.id) = some c.currentPrice) := by
  obtain ⟨c0, hc0, hid, hcase⟩ := enrichMarkets_mem oracle _ hnd c hc
  obtain ⟨hmem, _⟩ := rankMarkets_subset _ c0 hc0
  obtain ⟨pm, hpm, _, _, hpid, hpp, _⟩ :=
    matchedMarkets_mem keywords allMarkets c0 hmem
  rcases hcase with hcc | ⟨p, hlp, hcp⟩
  · subst hcc
    exact ⟨pm, hpm, hpid, ⟨_, hpp⟩, Or.inl hpp⟩
  · subst hcp
    refine ⟨pm, hpm, hpid, ⟨_, hpp⟩, Or.inr ?_⟩
    rw [hpid]
    exact hlp

/-- C5: every candidate the Listing Source Client returns originates from a
catalog listing whose price vector parsed to a valid probability — a
listing with an unparsable price vector is omitted entirely — and the
candidate's price is either that parsed price or a valid live quote for
that listing, never a defaulted 0.5 substituted for unparsable input. -/
theorem c5_unparsable_dropped (keywords : List String)
    (allMarkets : List PolymarketMarket) (oracle : String → EnrichOutcome)
    (hnd : ((rankMarkets (matchedMarkets keywords allMarkets)).map
      MarketData.id).Nodup) :
    ∀ c ∈ fetchMarketsForTopic keywords (CatalogOutcome.ok allMarkets) oracle,
      ∃ pm ∈ allMarkets, pm.id = c.id ∧ (∃ q, parseYesPrice pm = some q) ∧
        (parseYesPrice pm = some c.currentPrice ∨
          livePriceOf (oracle pm.id) = some c.currentPrice) := by
  intro c hc
  rw [fetchMarketsForTopic_ok] at hc
  split at hc
  · rcases mergeCapped_mem _ _ _ c hc with hce | hct
    · exact enriched_candidate_source keywords allMarkets oracle hnd c hce
    · obtain ⟨pm, hpm, _, hid, hpp⟩ := topVolumeFallback_mem allMarkets c hct
      exact ⟨pm, hpm, hid, ⟨_, hpp⟩, Or.inl hpp⟩
  · exact enriched_candidate_source keywords allMarkets oracle hnd c hc

/-- Witness for C5: the one candidate returned on the fallback path carries
exactly the parsed catalog price of its listing. -/
theorem c5_unparsable_dropped_witness :
    ∃ pm ∈ [pmElection], pm.id = (toMarketData pmElection 1).id ∧
      (∃ q, parseYesPrice pm = some q) ∧
      (parseYesPrice pm = some ((toMarketData pmElection 1).currentPrice) ∨
        livePriceOf (oracleW pm.id) =
          some ((toMarketData pmElection 1).currentPrice)) := by
  have hrank : rankMarkets (matchedMarkets ["zzz"] [pmElection]) = [] := by
    rw [show matchedMarkets ["zzz"] [pmElection] = [] from by decide]
    unfold rankMarkets
    rw [List.filter_nil, List.mergeSort_nil, List.take_nil]
  have hnd : ((rankMarkets (matchedMarkets ["zzz"] [pmElection])).map
      MarketData.id).Nodup := by
    rw [hrank]
    exact List.nodup_nil
  exact c5_unparsable_dropped ["zzz"] [pmElection] oracleW hnd
    (toMarketData pmElection 1)
    (by rw [fetch_keywordless_eval oracleW]; exact List.mem_singleton.mpr rfl)

/-- C10: the live-quote enrichment touches only the first 5 ranked
candidates (a candidate at position 5 or later is returned unchanged), and
every candidate the low-yield fallback adds to the result carries exactly
the price parsed from its catalog listing — never a live quote. -/
theorem c10_enrichment_frame (keywords : List String)
    (allMarkets : List PolymarketMarket) (oracle : String → EnrichOutcome)
    (hnd : ((rankMarkets (matchedMarkets keywords allMarkets)).map
      MarketData.id).Nodup) :
    (∀ (i : ℕ) (mi : MarketData), 5 ≤ i →
      (rankMarkets (matchedMarkets keywords allMarkets))[i]? = some mi →
      (enrichMarkets oracle
        (rankMarkets (matchedMarkets keywords allMarkets)))[i]? = some mi) ∧
    (∀ c ∈ fetchMarketsForTopic keywords (CatalogOutcome.ok allMarkets) oracle,
      c ∉ enrichMarkets oracle (rankMarkets (matchedMarkets keywords allMarkets)) →
      ∃ pm ∈ allMarkets, pm.id = c.id ∧
        parseYesPrice pm = some c.currentPrice) := by
  constructor
  · intro i mi h5 hget
    rw [enrichMarkets_eq_enrichBudget oracle _ hnd, enrichBudget_getElem?,
      hget, Option.map_some', if_neg (by omega)]
  · intro c hc hnotin
    rw [fetchMarketsForTopic_ok] at hc
    split at hc
    · rcases mergeCapped_mem _ _ _ c hc with hce | hct
      · exact absurd hce hnotin
      · obtain ⟨pm, hpm, _, hid, hpp⟩ := topVolumeFallback_mem allMarkets c hct
        exact ⟨pm, hpm, hid, hpp⟩
    · exact absurd hc hnotin

/-- Witness for C10: with an oracle quoting a valid live price of 0 for
every id, the fallback-added candidate still carries its parsed catalog
price 1 — the live quote is never applied to fallback candidates. -/
theorem c10_enrichment_frame_witness :
    ∃ pm ∈ [pmElection], pm.id = (toMarketData pmElection 1).id ∧
      parseYesPrice pm = some ((toMarketData pmElection 1).currentPrice) := by
  have hrank : rankMarkets (matchedMarkets ["zzz"] [pmElection]) = [] := by
    rw [show matchedMarkets ["zzz"] [pmElection] = [] from by decide]
    unfold rankMarkets
    rw [List.filter_nil, List.mergeSort_nil, List.take_nil]
  have hnd : ((rankMarkets (matchedMarkets ["zzz"] [pmElection])).map
      MarketData.id).Nodup := by
    rw [hrank]
    exact List.nodup_nil
  refine (c10_enrichment_frame ["zzz"] [pmElection] oracleQ hnd).2
    (toMarketData pmElection 1) ?_ ?_
  · rw [fetch_keywordless_eval oracleQ]
    exact List.mem_singleton.mpr rfl
  · rw [show enrichMarkets oracleQ (rankMarkets (matchedMarkets ["zzz"] [pmElection]))
        = [] from by rw [hrank]; rfl]
    exact List.not_mem_nil _

/-- C4: a scan reaches a hard error exactly when the market set was
non-empty and the judge call failed (empty-market and empty-signal outcomes
are distinct non-error results, and catalog or enrichment failures are
absorbed into the empty set before the judge runs); and a failed judge call
never creates any signal. -/
theorem c4_judge_failure_hard_fails (topicId : String) (keywords : List String)
    (catalog : CatalogOutcome) (oracle : String → EnrichOutcome)
    (judge : JudgeOutcome) :
    ((∃ e, scanTopic topicId keywords catalog oracle judge =
        ScanResult.hardError e) ↔
      (fetchMarketsForTopic keywords catalog oracle ≠ [] ∧
        judgeFailed judge = true)) ∧
    (judgeFailed judge = true →
      signalsCreated (scanTopic topicId keywords catalog oracle judge) = []) := by
  by_cases hm : (fetchMarketsForTopic keywords catalog oracle).isEmpty = true
  · have hm' : fetchMarketsForTopic keywords catalog oracle = [] :=
      List.isEmpty_iff.mp hm
    refine ⟨⟨?_, ?_⟩, ?_⟩
    · rintro ⟨e, he⟩
      unfold scanTopic at he
      rw [if_pos hm] at he
      exact absurd he (by simp)
    · rintro ⟨hne, _⟩
      exact absurd hm' hne
    · intro _
      unfold scanTopic
      rw [if_pos hm]
      rfl
  · have hne : fetchMarketsForTopic keywords catalog oracle ≠ [] :=
      fun h => hm (List.isEmpty_iff.mpr h)
    have hAnalyze : analyzeMarkets (fetchMarketsForTopic keywords catalog oracle)
        judge =
        (match judge with
          | JudgeOutcome.callError => Except.error "AI analysis error"
          | JudgeOutcome.noContent => Except.error "No response from AI"
          | JudgeOutcome.badJson => Except.error "AI analysis error"
          | JudgeOutcome.ok analyses => Except.ok analyses) := by
      unfold analyzeMarkets
      rw [if_neg hm]
    cases judge with
    | ok analyses =>
      refine ⟨⟨?_, ?_⟩, ?_⟩
      · rintro ⟨e, he⟩
        unfold scanTopic at he
        rw [if_neg hm, hAnalyze] at he
        dsimp only at he
        split at he
        · exact absurd he (by simp)
        · exact absurd he (by simp)
      · rintro ⟨_, hjf⟩
        exact absurd hjf (by simp [judgeFailed])
      · intro hjf
        exact absurd hjf (by simp [judgeFailed])
    | callError =>
      refine ⟨⟨fun _ => ⟨hne, rfl⟩, fun _ => ⟨"AI analysis error", ?_⟩⟩, fun _ => ?_⟩
      · unfold scanTopic
        rw [if_neg hm, hAnalyze]
      · unfold scanTopic
        rw [if_neg hm, hAnalyze]
        rfl
    | noContent =>
      refine ⟨⟨fun _ => ⟨hne, rfl⟩, fun _ => ⟨"No response from AI", ?_⟩⟩, fun _ => ?_⟩
      · unfold scanTopic
        rw [if_neg hm, hAnalyze]
      · unfold scanTopic
        rw [if_neg hm, hAnalyze]
        rfl
    | badJson =>
      refine ⟨⟨fun _ => ⟨hne, rfl⟩, fun _ => ⟨"AI analysis error", ?_⟩⟩, fun _ => ?_⟩
      · unfold scanTopic
        rw [if_neg hm, hAnalyze]
      · unfold scanTopic
        rw [if_neg hm, hAnalyze]
        rfl

/-- Witness for C4: on a non-empty market set with a failed judge call, the
scan is a hard error and creates no signals. -/
theorem c4_judge_failure_hard_fails_witness :
    signalsCreated (scanTopic "t1" ["zzz"] (CatalogOutcome.ok [pmElection])
      oracleW JudgeOutcome.callError) = [] ∧
    (∃ e, scanTopic "t1" ["zzz"] (CatalogOutcome.ok [pmElection])
      oracleW JudgeOutcome.callError = ScanResult.hardError e) := by
  have h := c4_judge_failure_hard_fails "t1" ["zzz"]
    (CatalogOutcome.ok [pmElection]) oracleW JudgeOutcome.callError
  refine ⟨h.2 rfl, h.1.mpr ⟨?_, rfl⟩⟩
  rw [fetch_keywordless_eval oracleW]
  simp

/-- C9 counterexample: PATCHing a dismissed signal with `"active"` is
accepted and moves the signal out of the terminal state — the code never
consults the current status, so terminal states are not enforced. -/
theorem c9_terminal_escape_counterexample :
    patchSignal SignalStatus.dismissed "active" = some SignalStatus.active ∧
      SignalStatus.active ≠ SignalStatus.dismissed := by
  exact ⟨rfl, by simp⟩

/-- C9 (amended): every signal is created with status `active`, but the
status-update operation sets exactly the requested status regardless of the
current one — `dismissed` and `added` are not enforced as terminal states,
and a status update can transition a signal out of them. -/
theorem c9_lifecycle_amended :
    initialStatus = SignalStatus.active ∧
    (∀ current requested : SignalStatus,
      updateSignalStatus current requested = requested) ∧
    (∀ (current : SignalStatus) (body : String) (s : SignalStatus),
      patchSignal current body = some s ↔ parseStatus body = some s) := by
  refine ⟨rfl, fun _ _ => rfl, ?_⟩
  intro current body s
  unfold patchSignal updateSignalStatus
  cases parseStatus body <;> simp

/-- Witness for C9 (amended): an `added` signal PATCHed with `"dismissed"`
ends up `dismissed`, regardless of its current status. -/
theorem c9_lifecycle_amended_witness :
    patchSignal SignalStatus.added "dismissed" = some SignalStatus.dismissed :=
  (c9_lifecycle_amended.2.2 SignalStatus.added "dismissed"
    SignalStatus.dismissed).mpr rfl

end EdgeFinder
